import Mathlib

/-!
Shallow embedding of the C-NMF v3 music segmenter
(src/algorithms/cnmf3/segmenter.py) and proofs about its claims.

Real-valued feature/activation entries are modelled as rationals (ℚ): every
operation the segmenter performs on them is order-structural (argmax, median
as an order statistic), so ℚ carries exactly the relevant structure.

The external matrix-factorization backend (pymf's CNMF, called through the
local wrapper `cnmf`) is iterative and possibly randomized; the spec only
requires structural properties for *every* possible factorization outcome.
It is therefore modelled as an oracle `fact : Mat → ℕ → Option Mat`:
`fact X rank = none` models `cnmf` raising, and `fact X rank = some Gt`
models a successful factorization whose activation matrix, transposed to
frames × rank orientation (the `G.T` that the source immediately forms),
is `Gt`.  All theorems quantify over the oracle.
-/

namespace CNMF3

/-- A matrix: list of rows of rationals. -/
abbrev Mat := List (List ℚ)

/-- `np.argmax` on a 1-D array: the index of the first occurrence of the
maximum value (numpy's documented tie-breaking: lowest index wins).
On an empty array numpy raises; we return 0 — every use below is guarded by
nonemptiness. -/
def npArgmax {α : Type} [LinearOrder α] [DecidableEq α] (l : List α) : ℕ :=
  match l.maximum with
  | none => 0
  | some m => l.indexOf m

/-- scipy.ndimage boundary mode `reflect` `(d c b a | a b c d | d c b a)`:
maps an arbitrary (possibly negative) index into `[0, n)`. -/
def reflectIndex (n : ℕ) (j : ℤ) : ℕ :=
  if (j % (2 * (n : ℤ))).toNat < n then (j % (2 * (n : ℤ))).toNat
  else 2 * n - 1 - (j % (2 * (n : ℤ))).toNat

/-- `scipy.ndimage.filters.median_filter` on a 1-D sequence with window
`size = M` and default origin/mode: for output position `i` the window spans
input indices `i - M/2 .. i - M/2 + M - 1` with reflected edges, and the
output is the element of 0-based rank `M/2` of the sorted window (scipy's
median filter is the rank filter of rank `size // 2`; it never averages). -/
def medfilt1 {α : Type} [LinearOrder α] (d : α) (M : ℕ) (x : List α) : List α :=
  (List.range x.length).map (fun (i : ℕ) =>
    (((List.range M).map (fun (k : ℕ) =>
        x.getD (reflectIndex x.length ((i : ℤ) - ((M / 2 : ℕ) : ℤ) + (k : ℤ))) d)).insertionSort
      (fun a b => a ≤ b)).getD (M / 2) d)

/-- Column `j` of a matrix. -/
def colOf (X : Mat) (j : ℕ) : List ℚ := X.map (fun row => row.getD j 0)

/-- `median_filter(X, M)` from the source: median-filters every column of `X`
along the first (frame) axis.  The Python function additionally assigns each
filtered column back into `X` in place and returns `X` itself; the
caller-visible in-place effect is modelled explicitly in `process_state`. -/
def median_filter (X : Mat) (M : ℕ) : Mat :=
  (List.range X.length).map (fun i =>
    (List.range ((X.headD []).length)).map (fun j => (medfilt1 0 M (colOf X j)).getD i 0))

/-- `np.bincount`: occurrence counts of each value `0 .. max x`;
empty input gives an empty array. -/
def npBincount (x : List ℕ) : List ℕ :=
  (List.range (if x = [] then 0 else x.foldr max 0 + 1)).map (fun v => x.count v)

/-- `most_frequent(x) = np.argmax(np.bincount(x))`: the most frequent value of
`x`, ties broken by the lowest value. -/
def most_frequent (x : List ℕ) : ℕ := npArgmax (npBincount x)

/-- `filter_activation_matrix(G, R)` where `G` is frames × rank: per frame,
zero the row except at its argmax component, write `argmax + 1` there, and
sum the row — which is exactly `argmax + 1` — then median-filter the
resulting per-frame sequence with window `R` and flatten. -/
def filter_activation_matrix (G : Mat) (R : ℕ) : List ℕ :=
  medfilt1 0 R (G.map (fun row => npArgmax row + 1))

/-- `np.where(np.diff(G) != 0)[0] + 1`: the indices `i + 1` such that the
label sequence changes value between frames `i` and `i + 1`. -/
def boundsFromLabels (L : List ℕ) : List ℕ :=
  ((List.range (L.length - 1)).filter
      (fun i => decide (L.getD i 0 ≠ L.getD (i + 1) 0))).map (fun i => i + 1)

/-- `compute_labels2(X, rank, R, bound_idxs)`: factorize `X` at `rank`
(`[1]` if the factorization raises), hard-filter the activation matrix into
per-frame labels, then emit the frame-0 label, one majority-vote label per
adjacent boundary pair (`max + 1` sentinel for non-positive-length pairs),
and the final frame's label. -/
def compute_labels2 (X : Mat) (fact : Mat → ℕ → Option Mat) (rank R : ℕ)
    (bound_idxs : List ℕ) : List ℕ :=
  match fact X rank with
  | none => [1]
  | some Gt =>
    let label_frames := filter_activation_matrix Gt R
    label_frames.getD 0 0 ::
      ((bound_idxs.zip bound_idxs.tail).map (fun p =>
        if p.2 ≤ p.1 then label_frames.foldr max 0 + 1
        else most_frequent ((label_frames.drop p.1).take (p.2 - p.1))))
      ++ [label_frames.getD (label_frames.length - 1) 0]

/-- The boundary candidates produced from one successful discovery
factorization at some rank: hard-filter the activation matrix into per-frame
labels, then take the first-difference change indices
(`bound_idxs = np.where(np.diff(G) != 0)[0] + 1`). -/
def candidatesOf (Gt : Mat) (R : ℕ) : List ℕ :=
  boundsFromLabels (filter_activation_matrix Gt R)

/-- Fuel-indexed model of the `while True` loop of `get_segmentation`.
`none` = fuel exhausted (the Python loop has no bound and may diverge);
`some (Except.error ())` = factorization raised during boundary discovery
(the source returns `(np.empty(0), [1])` at once);
`some (Except.ok bs)` = the loop hit `break` with finalized boundaries `bs`.
Each iteration: if `bound_idxs` is `None`, factorize at the current rank,
filter the activation matrix and take the first-difference candidates; then,
if the candidates have at most 2 distinct values, increment the rank, reset
`bound_idxs` to `None` and iterate, else break. -/
def getSegLoop (X : Mat) (factD : Mat → ℕ → Option Mat) (R : ℕ) :
    ℕ → ℕ → Option (List ℕ) → Option (Except Unit (List ℕ))
  | 0, _, _ => none
  | fuel + 1, rank, bound_idxs =>
    match bound_idxs with
    | none =>
      match factD X rank with
      | none => some (Except.error ())
      | some Gt =>
        if (candidatesOf Gt R).dedup.length ≤ 2 then getSegLoop X factD R fuel (rank + 1) none
        else some (Except.ok (candidatesOf Gt R))
    | some bs =>
      if bs.dedup.length ≤ 2 then getSegLoop X factD R fuel (rank + 1) none
      else some (Except.ok bs)

/-- `get_segmentation(X, rank, R, niter, bound_idxs)`: run the discovery loop,
then label the finalized boundaries with `compute_labels2` at the hard-coded
`rank_labels = 5`, `R_labels = 6`.  `factD` is the oracle for the discovery
factorizations, `factL` the one for the labeling factorization. -/
def get_segmentation (X : Mat) (factD factL : Mat → ℕ → Option Mat)
    (rank R : ℕ) (bound_idxs : Option (List ℕ)) (fuel : ℕ) :
    Option (List ℕ × List ℕ) :=
  match getSegLoop X factD R fuel rank bound_idxs with
  | none => none
  | some (Except.error _) => some ([], [1])
  | some (Except.ok bs) => some (bs, compute_labels2 X factL 5 6 bs)

/-- `F.T` for a rectangular matrix. -/
def transposeM (X : Mat) : Mat :=
  (List.range ((X.headD []).length)).map (fun j => colOf X j)

/-- The core of `process` after feature selection: if the feature matrix `F`
(frames × dims) has at least `h` frames, `F = median_filter(F, M=h)` runs —
overwriting the caller's array in place — and `get_segmentation(F.T, ...)` is
called; otherwise the trivial `(empty, [1])` result is produced with no
factorization and no filtering.  The second component of the result is the
caller-visible contents of the array `F` after the call. -/
def process_state (factD factL : Mat → ℕ → Option Mat) (F : Mat)
    (h R rank fuel : ℕ) (bound_idxs : Option (List ℕ)) :
    Option (List ℕ × List ℕ) × Mat :=
  if h ≤ F.length then
    (get_segmentation (transposeM (median_filter F h)) factD factL rank R bound_idxs fuel,
      median_filter F h)
  else (some ([], [1]), F)

/-- A concrete activation matrix (8 frames × rank 2) whose hard-label
sequence is `[1,1,2,2,1,1,2,2]`, giving boundary candidates `[2,4,6]`. -/
def GtBug : Mat := [[1, 0], [1, 0], [0, 1], [0, 1], [1, 0], [1, 0], [0, 1], [0, 1]]

/-- A minimal activation matrix: 2 frames × rank 1. -/
def GtSmall : Mat := [[1], [0]]

/-- A concrete 5-frame × 1-dim feature matrix with an isolated spike, which
the pre-smoothing median filter flattens. -/
def Fspike : Mat := [[0], [1], [0], [0], [0]]

/-! ### Lemmas about npArgmax -/

/-- Positions strictly before the first occurrence of `a` do not hold `a`. -/
theorem getD_ne_of_lt_indexOf {α : Type} [DecidableEq α] (l : List α) (a d : α)
    (j : ℕ) (h : j < l.indexOf a) : l.getD j d ≠ a := by
  induction l generalizing j with
  | nil => simp [List.indexOf_nil] at h
  | cons b t ih =>
    by_cases hb : b = a
    · subst hb; simp [List.indexOf_cons_self] at h
    · rw [List.indexOf_cons_ne _ hb] at h
      cases j with
      | zero => simpa using hb
      | succ j => exact ih j (Nat.lt_of_succ_lt_succ h)

/-- The argmax of a nonempty list is a valid index. -/
theorem npArgmax_lt_length {α : Type} [LinearOrder α] [DecidableEq α]
    (l : List α) (hl : l ≠ []) : npArgmax l < l.length := by
  cases hm : l.maximum with
  | bot => exact absurd (List.maximum_eq_bot.mp hm) hl
  | coe m =>
    have hm2 : l.maximum = some m := hm
    have : npArgmax l = l.indexOf m := by unfold npArgmax; rw [hm2]
    rw [this]
    exact List.indexOf_lt_length.mpr (List.maximum_mem hm)

/-- The value at the argmax is the maximum of the list. -/
theorem getD_npArgmax {α : Type} [LinearOrder α] [DecidableEq α]
    (l : List α) (d m : α) (hm : l.maximum = some m) :
    l.getD (npArgmax l) d = m := by
  have h1 : npArgmax l = l.indexOf m := by unfold npArgmax; rw [hm]
  have h2 : l.indexOf m < l.length :=
    List.indexOf_lt_length.mpr (List.maximum_mem hm)
  rw [h1, List.getD_eq_getElem _ _ h2, List.getElem_indexOf]

/-- Every entry of the list is at most the entry at the argmax. -/
theorem getD_le_getD_npArgmax {α : Type} [LinearOrder α] [DecidableEq α]
    (l : List α) (d : α) (j : ℕ) (hj : j < l.length) :
    l.getD j d ≤ l.getD (npArgmax l) d := by
  have hl : l ≠ [] := by
    intro h; subst h; simp at hj
  cases hm : l.maximum with
  | bot => exact absurd (List.maximum_eq_bot.mp hm) hl
  | coe m =>
    have hm2 : l.maximum = some m := hm
    rw [getD_npArgmax l d m hm2, List.getD_eq_getElem _ _ hj]
    exact List.le_maximum_of_mem (l.getElem_mem hj) hm

/-- The argmax is the first position holding the maximum: entries at strictly
smaller positions differ from the entry at the argmax. -/
theorem getD_ne_getD_npArgmax_of_lt {α : Type} [LinearOrder α] [DecidableEq α]
    (l : List α) (d : α) (j : ℕ) (hj : j < npArgmax l) :
    l.getD j d ≠ l.getD (npArgmax l) d := by
  have hl : l ≠ [] := by
    intro h; subst h; simp [npArgmax, List.maximum_nil] at hj
  cases hm : l.maximum with
  | bot => exact absurd (List.maximum_eq_bot.mp hm) hl
  | coe m =>
    have hm2 : l.maximum = some m := hm
    have h1 : npArgmax l = l.indexOf m := by unfold npArgmax; rw [hm2]
    rw [getD_npArgmax l d m hm2]
    exact getD_ne_of_lt_indexOf l m d j (h1 ▸ hj)

/-! ### Lemmas about foldr max (np.max) -/

/-- Every member of a list of naturals is at most its `foldr max 0`. -/
theorem le_foldr_max (x : List ℕ) (v : ℕ) (hv : v ∈ x) : v ≤ x.foldr max 0 := by
  induction x with
  | nil => cases hv
  | cons a t ih =>
    rcases List.mem_cons.mp hv with rfl | h
    · exact le_max_left _ _
    · exact le_trans (ih h) (le_max_right _ _)

/-! ### Lemmas about npBincount and most_frequent -/

/-- getD of a map over a range, below the range bound. -/
theorem getD_map_range {β : Type} (f : ℕ → β) (n i : ℕ) (d : β) (hi : i < n) :
    ((List.range n).map f).getD i d = f i := by
  rw [List.getD_eq_getElem _ _ (by simpa using hi)]
  simp

/-- The bincount array holds occurrence counts at every valid position. -/
theorem npBincount_getD (x : List ℕ) (v : ℕ)
    (hv : v < (npBincount x).length) : (npBincount x).getD v 0 = x.count v := by
  unfold npBincount at hv ⊢
  rw [List.length_map, List.length_range] at hv
  exact getD_map_range _ _ _ _ hv

/-- For a nonempty list, the bincount array covers exactly `0 .. max`. -/
theorem npBincount_length (x : List ℕ) (hx : x ≠ []) :
    (npBincount x).length = x.foldr max 0 + 1 := by
  simp [npBincount, hx]

/-- most_frequent attains a maximal occurrence count. -/
theorem count_le_count_most_frequent (x : List ℕ) (hx : x ≠ []) (v : ℕ) :
    x.count v ≤ x.count (most_frequent x) := by
  have hlen : (npBincount x).length = x.foldr max 0 + 1 := npBincount_length x hx
  have hBne : npBincount x ≠ [] := by
    intro h; rw [h] at hlen; simp at hlen
  cases hm : (npBincount x).maximum with
  | bot => exact absurd (List.maximum_eq_bot.mp hm) hBne
  | coe m =>
    have hm2 : (npBincount x).maximum = some m := hm
    have hmf : x.count (most_frequent x) = m := by
      have h1 : (npBincount x).getD (npArgmax (npBincount x)) 0 = m :=
        getD_npArgmax _ 0 m hm2
      have h2 : npArgmax (npBincount x) < (npBincount x).length :=
        npArgmax_lt_length _ hBne
      rw [most_frequent, ← npBincount_getD x _ h2, h1]
    rw [hmf]
    by_cases hv : v < (npBincount x).length
    · rw [← npBincount_getD x v hv, List.getD_eq_getElem _ _ hv]
      exact List.le_maximum_of_mem ((npBincount x).getElem_mem hv) hm
    · have hnotmem : v ∉ x := by
        intro hmem
        have hle := le_foldr_max x v hmem
        rw [hlen] at hv
        omega
      rw [List.count_eq_zero.mpr hnotmem]
      exact Nat.zero_le _

/-- most_frequent is the least value among those of maximal occurrence count
(np.argmax breaks ties in the bincount by the lowest index = lowest value). -/
theorem most_frequent_le_of_count_eq (x : List ℕ) (hx : x ≠ []) (v : ℕ)
    (hv : x.count v = x.count (most_frequent x)) : most_frequent x ≤ v := by
  have hlen : (npBincount x).length = x.foldr max 0 + 1 := npBincount_length x hx
  have hBne : npBincount x ≠ [] := by
    intro h; rw [h] at hlen; simp at hlen
  have hmfpos : 0 < x.count (most_frequent x) := by
    obtain ⟨a, ha⟩ : ∃ a, a ∈ x := by
      cases x with
      | nil => exact absurd rfl hx
      | cons b t => exact ⟨b, List.mem_cons_self b t⟩
    calc 0 < x.count a := List.count_pos_iff.mpr ha
    _ ≤ x.count (most_frequent x) := count_le_count_most_frequent x hx a
  have hvmem : v ∈ x := by
    rw [← List.count_pos_iff]
    omega
  have hvlt : v < (npBincount x).length := by
    have := le_foldr_max x v hvmem
    rw [hlen]
    omega
  by_contra hcon
  push_neg at hcon
  have harg : v < npArgmax (npBincount x) := hcon
  have hne := getD_ne_getD_npArgmax_of_lt (npBincount x) 0 v harg
  apply hne
  have h2 : npArgmax (npBincount x) < (npBincount x).length :=
    npArgmax_lt_length _ hBne
  rw [npBincount_getD x v hvlt, npBincount_getD x _ h2]
  exact hv

/-! ### Lemmas about the median filter -/

/-- The reflected index is always a valid index when the array is nonempty. -/
theorem reflectIndex_lt (n : ℕ) (j : ℤ) (hn : 0 < n) : reflectIndex n j < n := by
  have h2n : (0 : ℤ) < 2 * (n : ℤ) := by positivity
  have hge : 0 ≤ j % (2 * (n : ℤ)) := Int.emod_nonneg j (by omega)
  have hlt : j % (2 * (n : ℤ)) < 2 * (n : ℤ) := Int.emod_lt_of_pos j h2n
  unfold reflectIndex
  split <;> omega

/-- Median filtering preserves the length of the sequence. -/
theorem medfilt1_length {α : Type} [LinearOrder α] (d : α) (M : ℕ) (x : List α) :
    (medfilt1 d M x).length = x.length := by
  simp [medfilt1]

/-- For a positive window, every output of the median filter is an element of
the input sequence (the rank filter picks an element of a window, and every
window slot holds an input element thanks to edge reflection). -/
theorem medfilt1_mem {α : Type} [LinearOrder α] (d : α) (M : ℕ) (x : List α)
    (hM : 1 ≤ M) (y : α) (hy : y ∈ medfilt1 d M x) : y ∈ x := by
  unfold medfilt1 at hy
  rw [List.mem_map] at hy
  obtain ⟨i, hi, hval⟩ := hy
  rw [List.mem_range] at hi
  set w := (List.range M).map (fun (k : ℕ) =>
      x.getD (reflectIndex x.length ((i : ℤ) - ((M / 2 : ℕ) : ℤ) + (k : ℤ))) d) with hw
  have hrank : M / 2 < M := Nat.div_lt_self (by omega) (by omega)
  have hslen : (w.insertionSort (fun a b => a ≤ b)).length = M := by
    rw [List.length_insertionSort, hw, List.length_map, List.length_range]
  have hmem1 : y ∈ w.insertionSort (fun a b => a ≤ b) := by
    rw [← hval, List.getD_eq_getElem _ _ (by rw [hslen]; exact hrank)]
    exact List.getElem_mem _
  have hmem2 : y ∈ w := (List.perm_insertionSort _ _).mem_iff.mp hmem1
  rw [hw, List.mem_map] at hmem2
  obtain ⟨k, _, hk⟩ := hmem2
  have hidx : reflectIndex x.length ((i : ℤ) - ((M / 2 : ℕ) : ℤ) + (k : ℤ)) < x.length :=
    reflectIndex_lt _ _ (by omega)
  rw [← hk, List.getD_eq_getElem _ _ hidx]
  exact List.getElem_mem _

/-- The per-frame label sequence has one entry per frame of the activation
matrix. -/
theorem filter_activation_matrix_length (Gt : Mat) (R : ℕ) :
    (filter_activation_matrix Gt R).length = Gt.length := by
  rw [filter_activation_matrix, medfilt1_length, List.length_map]

/-! ### Lemmas about boundsFromLabels -/

/-- The derived boundary candidates are strictly increasing. -/
theorem boundsFromLabels_sorted (L : List ℕ) :
    (boundsFromLabels L).Pairwise (· < ·) := by
  unfold boundsFromLabels
  rw [List.pairwise_map]
  exact ((List.pairwise_lt_range _).filter _).imp (fun h => by omega)

/-- Membership characterization of the derived boundary candidates: exactly
the indices `b = i + 1` at which the label sequence changes value, so
`1 ≤ b ≤ N - 1`. -/
theorem mem_boundsFromLabels (L : List ℕ) (b : ℕ) :
    b ∈ boundsFromLabels L ↔
      1 ≤ b ∧ b < L.length ∧ L.getD (b - 1) 0 ≠ L.getD b 0 := by
  unfold boundsFromLabels
  rw [List.mem_map]
  constructor
  · rintro ⟨i, hi, rfl⟩
    rw [List.mem_filter, List.mem_range] at hi
    obtain ⟨hilt, hne⟩ := hi
    rw [decide_eq_true_iff] at hne
    refine ⟨by omega, by omega, ?_⟩
    simpa using hne
  · rintro ⟨hb1, hblen, hne⟩
    refine ⟨b - 1, ?_, by omega⟩
    rw [List.mem_filter, List.mem_range, decide_eq_true_iff]
    constructor
    · omega
    · have : b - 1 + 1 = b := by omega
      rw [this]
      exact hne

/-! ### Step lemmas for the discovery loop -/

/-- Discovery mode, factorization raises: the loop returns the failure exit. -/
theorem getSegLoop_fail_step (X : Mat) (factD : Mat → ℕ → Option Mat)
    (R fuel rank : ℕ) (h : factD X rank = none) :
    getSegLoop X factD R (fuel + 1) rank none = some (Except.error ()) := by
  simp [getSegLoop, h]

/-- Discovery mode, at most 2 distinct candidates: escalate the rank. -/
theorem getSegLoop_escalate (X : Mat) (factD : Mat → ℕ → Option Mat)
    (R fuel rank : ℕ) (Gt : Mat) (h : factD X rank = some Gt)
    (hle : (candidatesOf Gt R).dedup.length ≤ 2) :
    getSegLoop X factD R (fuel + 1) rank none =
      getSegLoop X factD R fuel (rank + 1) none := by
  simp [getSegLoop, h, hle]

/-- Discovery mode, more than 2 distinct candidates: break with them. -/
theorem getSegLoop_break (X : Mat) (factD : Mat → ℕ → Option Mat)
    (R fuel rank : ℕ) (Gt : Mat) (h : factD X rank = some Gt)
    (hgt : 2 < (candidatesOf Gt R).dedup.length) :
    getSegLoop X factD R (fuel + 1) rank none =
      some (Except.ok (candidatesOf Gt R)) := by
  have hnot : ¬ (candidatesOf Gt R).dedup.length ≤ 2 := by omega
  simp [getSegLoop, h, hnot]

/-- Supplied boundaries with at most 2 distinct indices are discarded:
the rank is incremented and discovery restarts. -/
theorem getSegLoop_some_escalate (X : Mat) (factD : Mat → ℕ → Option Mat)
    (R fuel rank : ℕ) (bs : List ℕ) (h : bs.dedup.length ≤ 2) :
    getSegLoop X factD R (fuel + 1) rank (some bs) =
      getSegLoop X factD R fuel (rank + 1) none := by
  simp [getSegLoop, h]

/-- Supplied boundaries with more than 2 distinct indices break the loop
unchanged. -/
theorem getSegLoop_some_break (X : Mat) (factD : Mat → ℕ → Option Mat)
    (R fuel rank : ℕ) (bs : List ℕ) (h : 2 < bs.dedup.length) :
    getSegLoop X factD R (fuel + 1) rank (some bs) = some (Except.ok bs) := by
  have hnot : ¬ bs.dedup.length ≤ 2 := by omega
  simp [getSegLoop, hnot]

/-- If every rank `rank + k` for `k < j` factorizes but yields at most 2
distinct candidates, and factorization raises at `rank + j`, the discovery
loop ends in the failure exit (given enough fuel). -/
theorem getSegLoop_fail (X : Mat) (factD : Mat → ℕ → Option Mat) (R j : ℕ) :
    ∀ rank fuel : ℕ,
    (∀ k, k < j → ∃ Gt, factD X (rank + k) = some Gt ∧
        (candidatesOf Gt R).dedup.length ≤ 2) →
    factD X (rank + j) = none → j < fuel →
    getSegLoop X factD R fuel rank none = some (Except.error ()) := by
  induction j with
  | zero =>
    intro rank fuel _ hfail hfuel
    obtain ⟨f, rfl⟩ : ∃ f, fuel = f + 1 := ⟨fuel - 1, by omega⟩
    rw [Nat.add_zero] at hfail
    exact getSegLoop_fail_step X factD R f rank hfail
  | succ j ih =>
    intro rank fuel hsteps hfail hfuel
    obtain ⟨f, rfl⟩ : ∃ f, fuel = f + 1 := ⟨fuel - 1, by omega⟩
    obtain ⟨Gt, hG, hle⟩ := hsteps 0 (by omega)
    rw [Nat.add_zero] at hG
    rw [getSegLoop_escalate X factD R f rank Gt hG hle]
    apply ih (rank + 1) f
    · intro k hk
      obtain ⟨Gt2, h1, h2⟩ := hsteps (k + 1) (by omega)
      refine ⟨Gt2, ?_, h2⟩
      rw [show rank + 1 + k = rank + (k + 1) by omega]
      exact h1
    · rw [show rank + 1 + j = rank + (j + 1) by omega]
      exact hfail
    · omega

/-- If every rank `rank + k` for `k < j` factorizes but yields at most 2
distinct candidates, and rank `rank + j` factorizes with more than 2 distinct
candidates, the loop breaks there with exactly those candidates (given
enough fuel): the first sufficiently rich rank wins and no further
escalation happens. -/
theorem getSegLoop_ok (X : Mat) (factD : Mat → ℕ → Option Mat) (R j : ℕ)
    (Gt : Mat) : ∀ rank fuel : ℕ,
    (∀ k, k < j → ∃ Gt2, factD X (rank + k) = some Gt2 ∧
        (candidatesOf Gt2 R).dedup.length ≤ 2) →
    factD X (rank + j) = some Gt → 2 < (candidatesOf Gt R).dedup.length →
    j < fuel →
    getSegLoop X factD R fuel rank none = some (Except.ok (candidatesOf Gt R)) := by
  induction j with
  | zero =>
    intro rank fuel _ hfound hrich hfuel
    obtain ⟨f, rfl⟩ : ∃ f, fuel = f + 1 := ⟨fuel - 1, by omega⟩
    rw [Nat.add_zero] at hfound
    exact getSegLoop_break X factD R f rank Gt hfound hrich
  | succ j ih =>
    intro rank fuel hsteps hfound hrich hfuel
    obtain ⟨f, rfl⟩ : ∃ f, fuel = f + 1 := ⟨fuel - 1, by omega⟩
    obtain ⟨Gt2, hG, hle⟩ := hsteps 0 (by omega)
    rw [Nat.add_zero] at hG
    rw [getSegLoop_escalate X factD R f rank Gt2 hG hle]
    apply ih (rank + 1) f
    · intro k hk
      obtain ⟨Gt3, h1, h2⟩ := hsteps (k + 1) (by omega)
      refine ⟨Gt3, ?_, h2⟩
      rw [show rank + 1 + k = rank + (k + 1) by omega]
      exact h1
    · rw [show rank + 1 + j = rank + (j + 1) by omega]
      exact hfound
    · exact hrich
    · omega

/-- Unfolding of `get_segmentation` on the loop's failure exit. -/
theorem get_segmentation_of_loop_error (X : Mat)
    (factD factL : Mat → ℕ → Option Mat) (rank R : ℕ)
    (bidx : Option (List ℕ)) (fuel : ℕ)
    (h : getSegLoop X factD R fuel rank bidx = some (Except.error ())) :
    get_segmentation X factD factL rank R bidx fuel = some ([], [1]) := by
  unfold get_segmentation
  rw [h]

/-- Unfolding of `get_segmentation` on the loop's break exit. -/
theorem get_segmentation_of_loop_ok (X : Mat)
    (factD factL : Mat → ℕ → Option Mat) (rank R : ℕ)
    (bidx : Option (List ℕ)) (fuel : ℕ) (bs : List ℕ)
    (h : getSegLoop X factD R fuel rank bidx = some (Except.ok bs)) :
    get_segmentation X factD factL rank R bidx fuel =
      some (bs, compute_labels2 X factL 5 6 bs) := by
  unfold get_segmentation
  rw [h]

/-! ### Lemmas about compute_labels2 -/

/-- Unfolding of `compute_labels2` when the labeling factorization succeeds. -/
theorem compute_labels2_of_some (X : Mat) (fact : Mat → ℕ → Option Mat)
    (rank R : ℕ) (bs : List ℕ) (Gt : Mat) (hf : fact X rank = some Gt) :
    compute_labels2 X fact rank R bs =
      (filter_activation_matrix Gt R).getD 0 0 ::
        ((bs.zip bs.tail).map (fun p =>
          if p.2 ≤ p.1 then (filter_activation_matrix Gt R).foldr max 0 + 1
          else most_frequent
            (((filter_activation_matrix Gt R).drop p.1).take (p.2 - p.1))))
        ++ [(filter_activation_matrix Gt R).getD
              ((filter_activation_matrix Gt R).length - 1) 0] := by
  simp [compute_labels2, hf]

/-- The output entry at position `i + 1` is the label of the `i`-th adjacent
boundary pair: the sentinel `max + 1` for a non-positive-length pair, the
majority vote over the slice `[b_i : b_(i+1)]` otherwise. -/
theorem compute_labels2_getD_succ (X : Mat) (fact : Mat → ℕ → Option Mat)
    (rank R : ℕ) (bs : List ℕ) (Gt : Mat) (i : ℕ)
    (hf : fact X rank = some Gt) (hi : i + 1 < bs.length) :
    (compute_labels2 X fact rank R bs).getD (i + 1) 0 =
      (if bs.getD (i + 1) 0 ≤ bs.getD i 0 then
        (filter_activation_matrix Gt R).foldr max 0 + 1
      else most_frequent
        (((filter_activation_matrix Gt R).drop (bs.getD i 0)).take
          (bs.getD (i + 1) 0 - bs.getD i 0))) := by
  rw [compute_labels2_of_some X fact rank R bs Gt hf]
  have hplen : (bs.zip bs.tail).length = bs.length - 1 := by simp
  rw [List.cons_append]
  simp only [List.getD_cons_succ]
  rw [List.getD_append _ _ _ _ (by rw [List.length_map, hplen]; omega)]
  rw [List.getD_eq_getElem _ _ (by rw [List.length_map, hplen]; omega)]
  rw [List.getElem_map]
  have hzl : i < (bs.zip bs.tail).length := by rw [hplen]; omega
  have hi1 : i < bs.length := by omega
  have hz : (bs.zip bs.tail)[i] = (bs[i], bs[i + 1]) := by simp
  rw [hz]
  rw [List.getD_eq_getElem bs 0 (show i < bs.length by omega),
    List.getD_eq_getElem bs 0 hi]

/-- The sentinel `np.max(label_frames) + 1` differs from every per-frame
label. -/
theorem foldr_max_succ_not_mem (L : List ℕ) : L.foldr max 0 + 1 ∉ L := by
  intro h
  have := le_foldr_max L _ h
  omega

/-! ### Claim theorems -/

/-- C1: the claimed invariant — the pair returned by `get_segmentation` is
structurally valid on every path, including factorization failure during
labeling — fails on the code.  When boundary discovery finds `[2, 4, 6]`
(here from an oracle whose activation matrix yields hard labels
`[1,1,2,2,1,1,2,2]`) and the labeling factorization then raises,
`get_segmentation` returns `([2,4,6], [1])`: a non-empty boundary list with
a label list of length 1 instead of length 4.  The source's own
`assert len(est_times) - 1 == len(est_labels)` in `process` fails on this
output, so the code contradicts its own assertion.  This theorem evaluates
the embedded code at that failing input. -/
theorem C1_structural_validity_violated :
    get_segmentation [] (fun _ _ => some GtBug) (fun _ _ => none) 2 1 none 3
      = some ([2, 4, 6], [1]) ∧
    ¬ ([1] : List ℕ).length = ([2, 4, 6] : List ℕ).length + 1 := by
  constructor
  · decide
  · decide

/-- C2 counterexample: a supplied boundary list with at most 2 distinct
indices is not passed unchanged to label computation and discovery is not
skipped — the `len(np.unique(bound_idxs)) <= 2` check discards the supplied
`[5]`, the rank is bumped and discovery factorization runs: with a raising
discovery oracle the result becomes `([], [1])`, and with a succeeding one
the returned boundaries `[2,4,6]` come from discovery, not from the caller. -/
theorem C2_supplied_bounds_not_always_used :
    get_segmentation [] (fun _ _ => none) (fun _ _ => none) 2 1 (some [5]) 5
        = some ([], [1]) ∧
    get_segmentation [] (fun _ _ => some GtBug) (fun _ _ => none) 2 1 (some [5]) 5
        = some ([2, 4, 6], [1]) ∧
    ([] : List ℕ) ≠ [5] := by
  refine ⟨by decide, by decide, by decide⟩

/-- C2 (amended): if the supplied boundary index list has more than 2
distinct indices, boundary discovery (factorization, activation filtering,
first-difference derivation) is skipped entirely and the supplied list is
passed unchanged to label computation; a supplied list with at most 2
distinct indices is instead discarded and discovery runs at the next rank. -/
theorem C2_supplied_bounds_used_when_rich (X : Mat)
    (factD factL : Mat → ℕ → Option Mat) (rank R fuel : ℕ) (bs : List ℕ)
    (hbs : 2 < bs.dedup.length) :
    get_segmentation X factD factL rank R (some bs) (fuel + 1)
      = some (bs, compute_labels2 X factL 5 6 bs) :=
  get_segmentation_of_loop_ok X factD factL rank R (some bs) (fuel + 1) bs
    (getSegLoop_some_break X factD R fuel rank bs hbs)

theorem C2_supplied_bounds_used_when_rich_witness :
    2 < ([2, 4, 6] : List ℕ).dedup.length ∧
    get_segmentation [] (fun _ _ => none) (fun _ _ => none) 2 1 (some [2, 4, 6]) 1
      = some ([2, 4, 6], compute_labels2 [] (fun _ _ => none) 5 6 [2, 4, 6]) :=
  ⟨by decide, C2_supplied_bounds_used_when_rich [] _ _ 2 1 0 [2, 4, 6] (by decide)⟩

/-- C3: if factorization raises at any step of the boundary-discovery
escalation loop (after `j` escalation steps that factorized but produced at
most 2 distinct candidates each), `get_segmentation` immediately returns
`([], [1])` — for every labeling oracle and for every behavior of the
discovery oracle at ranks past the failing one, so no further factorization
attempt influences the result. -/
theorem C3_fail_returns_degenerate (X : Mat)
    (factD factL : Mat → ℕ → Option Mat) (rank R fuel j : ℕ)
    (hsteps : ∀ k, k < j → ∃ Gt, factD X (rank + k) = some Gt ∧
        (candidatesOf Gt R).dedup.length ≤ 2)
    (hfail : factD X (rank + j) = none) (hfuel : j < fuel) :
    get_segmentation X factD factL rank R none fuel = some ([], [1]) :=
  get_segmentation_of_loop_error X factD factL rank R none fuel
    (getSegLoop_fail X factD R j rank fuel hsteps hfail hfuel)

theorem C3_fail_returns_degenerate_witness :
    get_segmentation [] (fun _ _ => none) (fun _ _ => some GtBug) 2 1 none 1
      = some ([], [1]) :=
  C3_fail_returns_degenerate [] (fun _ _ => none) (fun _ _ => some GtBug) 2 1 1 0
    (fun _ hk => absurd hk (by omega)) rfl (by omega)

/-- C4: if the factorization inside `compute_labels2` raises, the function
returns exactly `[1]`, for every input matrix, every window and every
supplied boundary index list, regardless of how many boundaries were
supplied. -/
theorem C4_labels_fail_returns_one (X : Mat) (fact : Mat → ℕ → Option Mat)
    (rank R : ℕ) (bs : List ℕ) (hf : fact X rank = none) :
    compute_labels2 X fact rank R bs = [1] := by
  simp [compute_labels2, hf]

theorem C4_labels_fail_returns_one_witness :
    compute_labels2 [] (fun _ _ => none) 5 6 [3, 1, 2, 900] = [1] :=
  C4_labels_fail_returns_one [] (fun _ _ => none) 5 6 [3, 1, 2, 900] rfl

/-- C5: the rank-escalation loop increments the rank by 1 and redoes
factorization plus filtering from scratch while the candidate set has at
most 2 distinct indices, and it stops at the first rank `rank + j` whose
candidate set has more than 2 distinct indices, returning exactly that
rank's candidates — no further escalation.  Under the precondition that such
a rank is reachable (with no factorization failure before it), any fuel
greater than `j` suffices, i.e. the unbounded Python loop is total there. -/
theorem C5_escalation_stops_at_first_rich_rank (X : Mat)
    (factD factL : Mat → ℕ → Option Mat) (rank R fuel j : ℕ) (Gt : Mat)
    (hsteps : ∀ k, k < j → ∃ Gt2, factD X (rank + k) = some Gt2 ∧
        (candidatesOf Gt2 R).dedup.length ≤ 2)
    (hfound : factD X (rank + j) = some Gt)
    (hrich : 2 < (candidatesOf Gt R).dedup.length) (hfuel : j < fuel) :
    get_segmentation X factD factL rank R none fuel
      = some (candidatesOf Gt R,
          compute_labels2 X factL 5 6 (candidatesOf Gt R)) :=
  get_segmentation_of_loop_ok X factD factL rank R none fuel _
    (getSegLoop_ok X factD R j Gt rank fuel hsteps hfound hrich hfuel)

theorem C5_escalation_stops_witness :
    get_segmentation [] (fun _ _ => some GtBug) (fun _ _ => none) 2 1 none 1
      = some (candidatesOf GtBug 1,
          compute_labels2 [] (fun _ _ => none) 5 6 (candidatesOf GtBug 1)) :=
  C5_escalation_stops_at_first_rich_rank [] (fun _ _ => some GtBug)
    (fun _ _ => none) 2 1 1 0 GtBug (fun _ hk => absurd hk (by omega)) rfl
    (by decide) (by omega)

/-- C6: the discovered boundary candidates are exactly the indices `i + 1`
at which the filtered per-frame label sequence changes between frames `i`
and `i + 1`: a frame index `b` is a candidate iff `1 ≤ b < N` (`N` the frame
count of the activation matrix) and the filtered labels at `b - 1` and `b`
differ — hence every discovered boundary lies in `[1, N-1]` — and the
candidate list is strictly increasing. -/
theorem C6_candidates_characterization (Gt : Mat) (R : ℕ) :
    (candidatesOf Gt R).Pairwise (· < ·) ∧
    ∀ b : ℕ, b ∈ candidatesOf Gt R ↔
      1 ≤ b ∧ b < Gt.length ∧
      (filter_activation_matrix Gt R).getD (b - 1) 0 ≠
        (filter_activation_matrix Gt R).getD b 0 := by
  constructor
  · exact boundsFromLabels_sorted _
  · intro b
    rw [candidatesOf, mem_boundsFromLabels, filter_activation_matrix_length]

/-- C7: `filter_activation_matrix` maps a frames × rank activation matrix to
the sequence obtained by taking, per frame, the index of the maximal
component (ties broken by the lowest component index) plus 1, and
median-filtering that sequence with window `R`; the output has one entry per
frame and every output value lies in `[1, rank]`. -/
theorem C7_activation_filter (Gt : Mat) (R rank : ℕ) (hR : 1 ≤ R)
    (hrank : 1 ≤ rank) (hrow : ∀ row ∈ Gt, row.length = rank) :
    filter_activation_matrix Gt R
        = medfilt1 0 R (Gt.map (fun row => npArgmax row + 1)) ∧
    (filter_activation_matrix Gt R).length = Gt.length ∧
    (∀ row ∈ Gt, npArgmax row < row.length ∧
      (∀ j, j < row.length → row.getD j 0 ≤ row.getD (npArgmax row) 0) ∧
      (∀ j, j < npArgmax row → row.getD j 0 ≠ row.getD (npArgmax row) 0)) ∧
    (∀ v ∈ filter_activation_matrix Gt R, 1 ≤ v ∧ v ≤ rank) := by
  refine ⟨rfl, filter_activation_matrix_length Gt R, ?_, ?_⟩
  · intro row hmem
    have hne : row ≠ [] :=
      List.ne_nil_of_length_pos (by rw [hrow row hmem]; omega)
    exact ⟨npArgmax_lt_length row hne,
      fun j hj => getD_le_getD_npArgmax row 0 j hj,
      fun j hj => getD_ne_getD_npArgmax_of_lt row 0 j hj⟩
  · intro v hv
    have hv2 : v ∈ Gt.map (fun row => npArgmax row + 1) :=
      medfilt1_mem 0 R _ hR v hv
    rw [List.mem_map] at hv2
    obtain ⟨row, hmem, rfl⟩ := hv2
    have hne : row ≠ [] :=
      List.ne_nil_of_length_pos (by rw [hrow row hmem]; omega)
    have hlt : npArgmax row < row.length := npArgmax_lt_length row hne
    have hlen := hrow row hmem
    exact ⟨by omega, by omega⟩

theorem C7_activation_filter_witness :
    (1 ≤ 1 ∧ (∀ row ∈ GtSmall, row.length = 1)) ∧
    (filter_activation_matrix GtSmall 1
        = medfilt1 0 1 (GtSmall.map (fun row => npArgmax row + 1)) ∧
    (filter_activation_matrix GtSmall 1).length = GtSmall.length ∧
    (∀ row ∈ GtSmall, npArgmax row < row.length ∧
      (∀ j, j < row.length → row.getD j 0 ≤ row.getD (npArgmax row) 0) ∧
      (∀ j, j < npArgmax row → row.getD j 0 ≠ row.getD (npArgmax row) 0)) ∧
    (∀ v ∈ filter_activation_matrix GtSmall 1, 1 ≤ v ∧ v ≤ 1)) :=
  ⟨⟨le_refl 1, by decide⟩,
    C7_activation_filter GtSmall 1 1 (by omega) (by omega) (by decide)⟩

/-- C8: in `compute_labels2`, when the labeling factorization succeeds on a
nonempty input and the supplied boundaries are in range: the first output
label is the hard label of frame 0 and the last is the hard label of the
final frame; the output at position `i + 1` is, for an adjacent boundary
pair with non-positive length, the sentinel `max(label_frames) + 1` — which
differs from every per-frame label — and, for a positive-length pair, the
most frequent per-frame hard label of the slice `[b_i, b_(i+1))` with ties
broken by the lowest label value. -/
theorem C8_segment_labels (X : Mat) (fact : Mat → ℕ → Option Mat)
    (rank R : ℕ) (bs : List ℕ) (Gt : Mat)
    (hf : fact X rank = some Gt) (hGt : Gt ≠ [])
    (hb : ∀ b ∈ bs, b < Gt.length) :
    (compute_labels2 X fact rank R bs).head? =
        some ((filter_activation_matrix Gt R).getD 0 0) ∧
    (compute_labels2 X fact rank R bs).getLast? =
        some ((filter_activation_matrix Gt R).getD (Gt.length - 1) 0) ∧
    ∀ i, i + 1 < bs.length →
      (bs.getD (i + 1) 0 ≤ bs.getD i 0 →
        (compute_labels2 X fact rank R bs).getD (i + 1) 0 =
            (filter_activation_matrix Gt R).foldr max 0 + 1 ∧
        (compute_labels2 X fact rank R bs).getD (i + 1) 0 ∉
            filter_activation_matrix Gt R) ∧
      (bs.getD i 0 < bs.getD (i + 1) 0 →
        (compute_labels2 X fact rank R bs).getD (i + 1) 0 =
            most_frequent
              (((filter_activation_matrix Gt R).drop (bs.getD i 0)).take
                (bs.getD (i + 1) 0 - bs.getD i 0)) ∧
        (∀ v : ℕ,
          (((filter_activation_matrix Gt R).drop (bs.getD i 0)).take
              (bs.getD (i + 1) 0 - bs.getD i 0)).count v ≤
          (((filter_activation_matrix Gt R).drop (bs.getD i 0)).take
              (bs.getD (i + 1) 0 - bs.getD i 0)).count
            ((compute_labels2 X fact rank R bs).getD (i + 1) 0)) ∧
        (∀ v : ℕ,
          (((filter_activation_matrix Gt R).drop (bs.getD i 0)).take
              (bs.getD (i + 1) 0 - bs.getD i 0)).count v =
          (((filter_activation_matrix Gt R).drop (bs.getD i 0)).take
              (bs.getD (i + 1) 0 - bs.getD i 0)).count
            ((compute_labels2 X fact rank R bs).getD (i + 1) 0) →
          (compute_labels2 X fact rank R bs).getD (i + 1) 0 ≤ v)) := by
  have hLlen : (filter_activation_matrix Gt R).length = Gt.length :=
    filter_activation_matrix_length Gt R
  refine ⟨?_, ?_, ?_⟩
  · rw [compute_labels2_of_some X fact rank R bs Gt hf, List.cons_append]
    rfl
  · rw [compute_labels2_of_some X fact rank R bs Gt hf, List.cons_append,
      ← List.cons_append, List.getLast?_concat, hLlen]
  · intro i hi
    constructor
    · intro hle
      rw [compute_labels2_getD_succ X fact rank R bs Gt i hf hi, if_pos hle]
      exact ⟨rfl, foldr_max_succ_not_mem _⟩
    · intro hlt
      have hnle : ¬ bs.getD (i + 1) 0 ≤ bs.getD i 0 := by omega
      rw [compute_labels2_getD_succ X fact rank R bs Gt i hf hi, if_neg hnle]
      have hbi : bs.getD i 0 < Gt.length := by
        have : bs.getD i 0 ∈ bs := by
          rw [List.getD_eq_getElem bs 0 (by omega)]
          exact List.getElem_mem _
        exact hb _ this
      have hslice :
          (((filter_activation_matrix Gt R).drop (bs.getD i 0)).take
            (bs.getD (i + 1) 0 - bs.getD i 0)) ≠ [] := by
        apply List.ne_nil_of_length_pos
        rw [List.length_take, List.length_drop, hLlen]
        omega
      exact ⟨rfl,
        fun v => count_le_count_most_frequent _ hslice v,
        fun v hv => most_frequent_le_of_count_eq _ hslice v hv⟩

theorem C8_segment_labels_witness :
    ((fun (_ : Mat) (_ : ℕ) => some GtSmall) ([] : Mat) 5 = some GtSmall ∧
      GtSmall ≠ [] ∧ (∀ b ∈ ([1, 1] : List ℕ), b < GtSmall.length)) ∧
    ((compute_labels2 [] (fun _ _ => some GtSmall) 5 1 [1, 1]).head? =
        some ((filter_activation_matrix GtSmall 1).getD 0 0) ∧
    (compute_labels2 [] (fun _ _ => some GtSmall) 5 1 [1, 1]).getLast? =
        some ((filter_activation_matrix GtSmall 1).getD (GtSmall.length - 1) 0) ∧
    ∀ i, i + 1 < ([1, 1] : List ℕ).length →
      (([1, 1] : List ℕ).getD (i + 1) 0 ≤ ([1, 1] : List ℕ).getD i 0 →
        (compute_labels2 [] (fun _ _ => some GtSmall) 5 1 [1, 1]).getD (i + 1) 0 =
            (filter_activation_matrix GtSmall 1).foldr max 0 + 1 ∧
        (compute_labels2 [] (fun _ _ => some GtSmall) 5 1 [1, 1]).getD (i + 1) 0 ∉
            filter_activation_matrix GtSmall 1) ∧
      (([1, 1] : List ℕ).getD i 0 < ([1, 1] : List ℕ).getD (i + 1) 0 →
        (compute_labels2 [] (fun _ _ => some GtSmall) 5 1 [1, 1]).getD (i + 1) 0 =
            most_frequent
              (((filter_activation_matrix GtSmall 1).drop (([1, 1] : List ℕ).getD i 0)).take
                (([1, 1] : List ℕ).getD (i + 1) 0 - ([1, 1] : List ℕ).getD i 0)) ∧
        (∀ v : ℕ,
          (((filter_activation_matrix GtSmall 1).drop (([1, 1] : List ℕ).getD i 0)).take
              (([1, 1] : List ℕ).getD (i + 1) 0 - ([1, 1] : List ℕ).getD i 0)).count v ≤
          (((filter_activation_matrix GtSmall 1).drop (([1, 1] : List ℕ).getD i 0)).take
              (([1, 1] : List ℕ).getD (i + 1) 0 - ([1, 1] : List ℕ).getD i 0)).count
            ((compute_labels2 [] (fun _ _ => some GtSmall) 5 1 [1, 1]).getD (i + 1) 0)) ∧
        (∀ v : ℕ,
          (((filter_activation_matrix GtSmall 1).drop (([1, 1] : List ℕ).getD i 0)).take
              (([1, 1] : List ℕ).getD (i + 1) 0 - ([1, 1] : List ℕ).getD i 0)).count v =
          (((filter_activation_matrix GtSmall 1).drop (([1, 1] : List ℕ).getD i 0)).take
              (([1, 1] : List ℕ).getD (i + 1) 0 - ([1, 1] : List ℕ).getD i 0)).count
            ((compute_labels2 [] (fun _ _ => some GtSmall) 5 1 [1, 1]).getD (i + 1) 0) →
          (compute_labels2 [] (fun _ _ => some GtSmall) 5 1 [1, 1]).getD (i + 1) 0 ≤ v))) :=
  ⟨⟨rfl, by decide, by decide⟩,
    C8_segment_labels [] (fun _ _ => some GtSmall) 5 1 [1, 1] GtSmall rfl
      (by decide) (by decide)⟩

/-- C9: an input whose frame count is smaller than the pre-smoothing window
`h` short-circuits to empty boundaries and labels `[1]` without invoking
factorization: the outcome is the same for arbitrary discovery and labeling
oracles, and the feature matrix is left untouched. -/
theorem C9_short_input_short_circuit
    (factD factD2 factL factL2 : Mat → ℕ → Option Mat) (F : Mat)
    (h R rank fuel : ℕ) (bidx : Option (List ℕ)) (hlt : F.length < h) :
    process_state factD factL F h R rank fuel bidx = (some ([], [1]), F) ∧
    process_state factD factL F h R rank fuel bidx
      = process_state factD2 factL2 F h R rank fuel bidx := by
  have hn : ¬ h ≤ F.length := by omega
  unfold process_state
  rw [if_neg hn, if_neg hn]
  exact ⟨rfl, rfl⟩

theorem C9_short_input_short_circuit_witness :
    ([[(0 : ℚ)], [0]] : Mat).length < 5 ∧
    (process_state (fun _ _ => none) (fun _ _ => none) [[(0 : ℚ)], [0]] 5 9 3 7 none
        = (some ([], [1]), [[(0 : ℚ)], [0]]) ∧
    process_state (fun _ _ => none) (fun _ _ => none) [[(0 : ℚ)], [0]] 5 9 3 7 none
        = process_state (fun _ _ => some GtBug) (fun _ _ => some GtBug)
            [[(0 : ℚ)], [0]] 5 9 3 7 none) :=
  ⟨by decide,
    C9_short_input_short_circuit (fun _ _ => none) (fun _ _ => some GtBug)
      (fun _ _ => none) (fun _ _ => some GtBug) [[(0 : ℚ)], [0]] 5 9 3 7 none
      (by decide)⟩

/-- C10 (amended): the feature matrix is not read-only — `median_filter`
assigns the filtered columns back into the array in place and `process`
calls it on the caller's matrix, so after a full processing call the
caller-visible array holds the median-filtered matrix whenever the input
reaches the filtering branch; only the too-short branch leaves it
untouched. -/
theorem C10_in_place_overwrite (factD factL : Mat → ℕ → Option Mat) (F : Mat)
    (h R rank fuel : ℕ) (bidx : Option (List ℕ)) :
    (process_state factD factL F h R rank fuel bidx).2
      = if h ≤ F.length then median_filter F h else F := by
  unfold process_state
  split
  · rfl
  · rfl

/-- C10 counterexample: a concrete 5-frame matrix for which a full
processing call changes the caller's array — the median filter flattens the
spike in place — refuting "the array passed in is left unchanged by a full
processing call". -/
theorem C10_not_read_only :
    (process_state (fun _ _ => none) (fun _ _ => none) Fspike 3 1 2 1 none).2
      ≠ Fspike := by decide

end CNMF3

